import Mathlib

/-!
Verification development for the gitbook2text repository.

Strings are modelled as lists of characters (`Str`).  The text-processing
functions of `src/utils.rs` (`txt_sanitize`, `url_to_filename`), the
fingerprint check of `src/crawler.rs` (`is_gitbook`), the crawl loop of
`extract_gitbook_links`, and the fetch-convert-save pipeline of
`src/main.rs` (`download_pages`) are embedded as executable Lean
functions.  Network fetches and file writes are passed in as explicit
function parameters, since the code treats them as opaque capabilities.
-/
abbrev Str := List Char

/-- Double-quote character (escape kept out of source text). -/
def qm : Char := Char.ofNat 34

/-- Whitespace recognised by Rust's regex `\s` and by `str::trim` /
`char::is_whitespace`: the Unicode `White_Space` set. -/
def wsChar (c : Char) : Bool :=
  let n := c.toNat
  n == 32 || (9 <= n && n <= 13) || n == 0x85 || n == 0xa0 || n == 0x1680 ||
  (0x2000 <= n && n <= 0x200a) || n == 0x2028 || n == 0x2029 ||
  n == 0x202f || n == 0x205f || n == 0x3000

/-!
Generic embedding of `Regex::replace_all` (the `regex` crate): scan the
input left to right; at each position, if the pattern matches at that
position, emit the replacement and resume scanning immediately after the
matched text (replaced text is never rescanned); otherwise emit the
current character and advance by one.  A matcher `m` receives the suffix
starting at the current position and returns `some (rep, n)` when the
pattern matches there, consuming `n + 1` characters (every pattern used
by `txt_sanitize` consumes at least one character) and producing
replacement text `rep`.  Fuel makes the recursion structural; one unit of
fuel is spent per emitted position, so `l.length` fuel always suffices.
-/
def scanF (m : Str → Option (Str × Nat)) : Nat → Str → Str
  | _, [] => []
  | 0, l => l
  | fuel + 1, c :: cs =>
    match m (c :: cs) with
    | some (rep, n) => rep ++ scanF m fuel (cs.drop n)
    | none => c :: scanF m fuel cs

/-- Model of `re.replace_all(&text, ...)` for a pattern embedded as `m`. -/
def scanRW (m : Str → Option (Str × Nat)) (l : Str) : Str :=
  scanF m l.length l

/-!
Matchers for the six `replace_all` passes of `txt_sanitize`
(src/utils.rs lines 136-165).  Each matcher implements one regex of the
source, with the regex crate's leftmost-first semantics: greedy `[^}]*`
and `\s*` take as much as possible and backtrack minimally, the lazy
`(.*?)` takes as little as possible, and `.` does not match a newline.
Since every whitespace character differs from the closing brace, a
leading `\s*[^}]*` matches exactly the brace-free run, so the greedy
backtracking reduces to: the first closing brace of the tag must be
immediately preceded by a percent sign.
-/
/-- Characters removed by the fifth pass, the character class of the
source regex (a double quote, a vertical bar, and a hyphen). -/
def stripSet : Str := [qm, '|', '-']

/-- Matcher of the pass-five regex: a single character of `stripSet`. -/
def matchStrip : Str → Option (Str × Nat)
  | c :: _ => if c ∈ stripSet then some ([], 0) else none
  | [] => none

/-- Matcher of the pass-six regex `\s+`: a maximal whitespace run,
replaced by a single space. -/
def matchSpace : Str → Option (Str × Nat)
  | c :: cs => if wsChar c then some ([' '], (cs.takeWhile wsChar).length) else none
  | [] => none

/-- Matcher of the pass-four regex (generic tag): an opening brace-percent,
a brace-free run whose last character is a percent sign, and the closing
brace; replaced by nothing. -/
def matchGeneric : Str → Option (Str × Nat)
  | c1 :: c2 :: rest =>
    if c1 = '{' ∧ c2 = '%' then
      let u := rest.takeWhile (fun c => c != '}')
      match rest.drop u.length with
      | '}' :: _ => if u.getLast? = some '%' then some ([], u.length + 2) else none
      | _ => none
    else none
  | _ => none

/-- Tail of a `title` attribute: whitespace, an equals sign, whitespace, a
quoted non-empty value, then the brace-free rest of the tag closed by a
percent sign and brace.  Returns the captured value and the text after
the closing brace. -/
def parseTitleTail (l : Str) : Option (Str × Str) :=
  match l.dropWhile wsChar with
  | '=' :: a2 =>
    match a2.dropWhile wsChar with
    | c :: a4 =>
      if c = qm then
        let y := a4.takeWhile (fun d => d != qm)
        if y.isEmpty then none
        else
          match a4.drop y.length with
          | _ :: a5 =>
            let v := a5.takeWhile (fun d => d != '}')
            match a5.drop v.length with
            | '}' :: rem => if v.getLast? = some '%' then some (y, rem) else none
            | _ => none
          | [] => none
      else none
    | [] => none
  | _ => none

/-- Attempt the `title` literal at offset `p` of the tag interior. -/
def tryTitle (rest : Str) (p : Nat) : Option (Str × Str) :=
  if ("title").data.isPrefixOf (rest.drop p) then parseTitleTail (rest.drop (p + 5)) else none

/-- Backtracking search for the `title` attribute: the greedy `[^}]*`
before it prefers the rightmost feasible occurrence, so offsets are tried
in descending order. -/
def titleDesc (rest : Str) : Nat → Option (Str × Str)
  | 0 => tryTitle rest 0
  | p + 1 =>
    match tryTitle rest (p + 1) with
    | some r => some r
    | none => titleDesc rest p

/-- Matcher of the pass-three regex (self-closing tag with a title);
replaced by the captured title value. -/
def matchTitle : Str → Option (Str × Nat)
  | c1 :: c2 :: rest =>
    if c1 = '{' ∧ c2 = '%' then
      let pref := rest.takeWhile (fun c => c != '}')
      match titleDesc rest pref.length with
      | some (y, rem) => some (y, 1 + rest.length - rem.length)
      | none => none
    else none
  | _ => none

/-- Length of an `endcode` closing tag at the head of the text, when
present. -/
def matchEndcodeLen : Str → Option Nat
  | '{' :: '%' :: r =>
    let r1 := r.dropWhile wsChar
    if ("endcode").data.isPrefixOf r1 then
      let r2 := (r1.drop 7).dropWhile wsChar
      match r2 with
      | '%' :: '}' :: _ =>
        some (2 + (r.length - r1.length) + 7 + ((r1.drop 7).length - r2.length) + 2)
      | _ => none
    else none
  | _ => none

/-- Lazy body capture `(.*?)` up to the first `endcode` closing tag: the
shortest newline-free prefix after which the closing tag matches.
Returns the body and the text after the closing tag. -/
def findBody : Str → Option (Str × Str)
  | [] => none
  | c :: cs =>
    match matchEndcodeLen (c :: cs) with
    | some k => some ([], (c :: cs).drop k)
    | none =>
      if c = '\n' then none
      else
        match findBody cs with
        | some (b, rem) => some (c :: b, rem)
        | none => none

/-- Attempt at one title offset of the pass-one regex: title attribute,
closing of the opening tag, then the lazy body and the `endcode` tag. -/
def tryTitleBody (r2 : Str) (p : Nat) : Option (Str × Str × Str) :=
  if ("title").data.isPrefixOf (r2.drop p) then
    match parseTitleTail (r2.drop (p + 5)) with
    | some (y, after) =>
      match findBody after with
      | some (b, rem) => some (y, b, rem)
      | none => none
    | none => none
  else none

/-- Descending backtracking search used by the pass-one matcher. -/
def titleBodyDesc (r2 : Str) : Nat → Option (Str × Str × Str)
  | 0 => tryTitleBody r2 0
  | p + 1 =>
    match tryTitleBody r2 (p + 1) with
    | some r => some r
    | none => titleBodyDesc r2 p

/-- Matcher of the pass-one regex (titled code block); replaced by the
title value, a space, and the body. -/
def matchCodeT : Str → Option (Str × Nat)
  | c1 :: c2 :: rest =>
    if c1 = '{' ∧ c2 = '%' then
      let r1 := rest.dropWhile wsChar
      if ("code").data.isPrefixOf r1 then
        let r2 := r1.drop 4
        let pref := r2.takeWhile (fun c => c != '}')
        match titleBodyDesc r2 pref.length with
        | some (y, b, rem) => some (y ++ ' ' :: b, 1 + rest.length - rem.length)
        | none => none
      else none
    else none
  | _ => none

/-- Matcher of the pass-two regex (untitled code block); replaced by the
body. -/
def matchCodeNT : Str → Option (Str × Nat)
  | c1 :: c2 :: rest =>
    if c1 = '{' ∧ c2 = '%' then
      let r1 := rest.dropWhile wsChar
      if ("code").data.isPrefixOf r1 then
        let r2 := r1.drop 4
        let v := r2.takeWhile (fun c => c != '}')
        match r2.drop v.length with
        | '}' :: after =>
          if v.getLast? = some '%' then
            match findBody after with
            | some (b, rem) => some (b, 1 + rest.length - rem.length)
            | none => none
          else none
        | _ => none
      else none
    else none
  | _ => none

/-- Model of Rust `str::trim_start`. -/
def trimStart (l : Str) : Str := l.dropWhile wsChar

/-- Model of Rust `str::trim_end`. -/
def trimEnd : Str → Str
  | [] => []
  | c :: cs =>
    match trimEnd cs with
    | [] => if wsChar c then [] else [c]
    | r => c :: r

/-- Model of Rust `str::trim`. -/
def rustTrim (l : Str) : Str := trimEnd (trimStart l)

/-- Embedding of `txt_sanitize` (src/utils.rs lines 136-165): the four
template-rewrite passes, the character-stripping pass, whitespace
collapapse, and the final trim, in source order. -/
def txt_sanitize (txt : Str) : Str :=
  rustTrim (scanRW matchSpace (scanRW matchStrip (scanRW matchGeneric
    (scanRW matchTitle (scanRW matchCodeNT (scanRW matchCodeT txt))))))

/-- Character kept by the stripping pass. -/
def keptChar (c : Char) : Bool := decide (c ∉ stripSet)

/-- Normal form produced by the whitespace-collapsing pass: every
whitespace character is a plain space and no two adjacent characters are
both whitespace. -/
def collapsedWs (l : Str) : Prop :=
  (∀ c ∈ l, wsChar c = true → c = ' ') ∧
  l.Chain' (fun a b => wsChar a = true → wsChar b = false)

/-!
Embedding of `is_gitbook` (src/crawler.rs lines 23-37).  The network
fetch is abstracted away: the function below is the pure core applied to
the fetched body text.  Rust `str::to_lowercase` is modelled char-wise on
the ASCII letters, which are the only characters the fingerprints use.
-/
/-- Model of the char-wise effect of Rust `to_lowercase` on ASCII. -/
def toLowerRust (c : Char) : Char :=
  match c with
  | 'A' => 'a' | 'B' => 'b' | 'C' => 'c' | 'D' => 'd' | 'E' => 'e' | 'F' => 'f'
  | 'G' => 'g' | 'H' => 'h' | 'I' => 'i' | 'J' => 'j' | 'K' => 'k' | 'L' => 'l'
  | 'M' => 'm' | 'N' => 'n' | 'O' => 'o' | 'P' => 'p' | 'Q' => 'q' | 'R' => 'r'
  | 'S' => 's' | 'T' => 't' | 'U' => 'u' | 'V' => 'v' | 'W' => 'w' | 'X' => 'x'
  | 'Y' => 'y' | 'Z' => 'z'
  | other => other

/-- Model of `html.to_lowercase()`. -/
def lowerStr (l : Str) : Str := l.map toLowerRust

/-- Model of Rust `str::contains` for a literal substring needle. -/
def strContainsSub (h n : Str) : Bool := decide (n <:+: h)

/-- The fingerprint set of src/crawler.rs line 31. -/
def gitbook_indicators : List Str :=
  [("gitbook").data, ("data-gitbook").data, ("__GITBOOK__").data, ("gitbook.com").data]

/-- Embedding of `is_gitbook` applied to an already-fetched body. -/
def is_gitbook (body : Str) : Bool :=
  gitbook_indicators.any (fun ind => strContainsSub (lowerStr body) ind)

/-- Case-insensitive containment of `fp` in `body`: some contiguous
substring of the body equals the fingerprint up to letter case. -/
def containsCI (body fp : Str) : Prop :=
  ∃ sub, sub <:+: body ∧ lowerStr sub = lowerStr fp

/-!
Embedding of the crawl loop of `extract_gitbook_links`
(src/crawler.rs lines 59-134).  The network and the URL library are
explicit parameters: `fetch` maps a page URL to the list of anchor href
attributes parsed from its body (`none` models a fetch or decode error,
which the loop logs and skips), and `resolve` maps the current page URL
and an href to the joined URL (`none` models a join error).  The source
fixes `resolve` to `base.join(href)` (line 105); keeping it a parameter
lets the spec's page-relative variant be stated alongside.  Of a joined
URL the loop consumes only `domain()` and `to_string()`, captured by
`ResolvedUrl`. -/
structure ResolvedUrl where
  dom : Option Str
  str : Str
deriving DecidableEq

structure CrawlEnv where
  fetch : Str → Option (List Str)
  resolve : Str → Str → Option ResolvedUrl
  baseDom : Option Str

/-- Eligibility filter of src/crawler.rs lines 108-113. -/
def isEligible (env : CrawlEnv) (u : ResolvedUrl) : Bool :=
  decide (u.dom = env.baseDom) && !decide ('#' ∈ u.str) &&
  !decide ((".pdf").data <:+ u.str) && !decide ((".zip").data <:+ u.str) &&
  !decide ((".jpg").data <:+ u.str) && !decide ((".png").data <:+ u.str)

/-- Model of `trim_end_matches('/')` (src/crawler.rs line 115). -/
def rtrimSlash : Str → Str
  | [] => []
  | c :: cs =>
    match rtrimSlash cs with
    | [] => if c = '/' then [] else [c]
    | r => c :: r

structure CrawlState where
  visited : List Str
  toVisit : List Str
  links : List Str
deriving DecidableEq

/-- Handling of one href of the current page (src/crawler.rs lines
104-122): resolve it, filter it, insert the normalized link into the
result set, and push it onto the frontier unless it is already visited
or already queued. -/
def addLink (env : CrawlEnv) (cur href : Str) (st : CrawlState) : CrawlState :=
  match env.resolve cur href with
  | none => st
  | some u =>
    if isEligible env u then
      let n := rtrimSlash u.str
      ⟨st.visited,
       if n ∉ st.visited ∧ n ∉ st.toVisit then n :: st.toVisit else st.toVisit,
       if n ∈ st.links then st.links else n :: st.links⟩
    else st

/-- One iteration of the crawl loop after popping `cur` from the frontier
(src/crawler.rs lines 73-125): skip if visited, otherwise mark visited,
fetch, and process each href in order. -/
def crawlIter (env : CrawlEnv) (cur : Str) (st : CrawlState) : CrawlState :=
  if cur ∈ st.visited then st
  else
    let st1 : CrawlState := ⟨cur :: st.visited, st.toVisit, st.links⟩
    match env.fetch cur with
    | none => st1
    | some hrefs => hrefs.foldl (fun s h => addLink env cur h s) st1

/-- The crawl loop: pop from the top of the stack until the frontier is
empty.  Fuel bounds the number of iterations; `none` means the fuel ran
out before the frontier emptied (the source has no such bound — claim C9
shows a finite link universe lets a sufficient fuel be chosen). -/
def crawlLoop (env : CrawlEnv) : Nat → CrawlState → Option CrawlState
  | fuel, st =>
    match st.toVisit, fuel with
    | [], _ => some st
    | _ :: _, 0 => none
    | cur :: rest, fuel' + 1 =>
      crawlLoop env fuel' (crawlIter env cur ⟨st.visited, rest, st.links⟩)

/-- Initial crawl state (src/crawler.rs lines 67-69): empty visited set,
the raw base URL on the frontier, empty result set. -/
def initState (b : Str) : CrawlState := ⟨[], [b], []⟩

/-- Character-wise lexicographic order, matching Rust's byte-wise string
order on the ASCII strings involved. -/
def strLe : Str → Str → Bool
  | [], _ => true
  | _ :: _, [] => false
  | a :: as, b :: bs => if a < b then true else if a = b then strLe as bs else false

/-- Insertion of one string into a sorted list. -/
def insertSorted (a : Str) : List Str → List Str
  | [] => [a]
  | b :: bs => if strLe a b then a :: b :: bs else b :: insertSorted a bs

/-- Ascending insertion sort by `strLe`, modelling `result.sort()`. -/
def sortStrs : List Str → List Str
  | [] => []
  | a :: as => insertSorted a (sortStrs as)

/-- The returned link list: the result set, sorted (src/crawler.rs lines
128-129). -/
def crawlResult (st : CrawlState) : List Str := sortStrs st.links

/-- Frontier invariant of claim C8: no duplicates, and disjoint from the
visited set. -/
def CrawlInv (st : CrawlState) : Prop :=
  st.toVisit.Nodup ∧ ∀ u ∈ st.toVisit, u ∉ st.visited

/-- Provenance of one inserted link: the page was fetched, one of its
hrefs resolved to an eligible URL, and the link is its normalization. -/
def HrefProv (env : CrawlEnv) (page s : Str) : Prop :=
  ∃ hrefs, env.fetch page = some hrefs ∧ ∃ href ∈ hrefs, ∃ u,
    env.resolve page href = some u ∧ isEligible env u = true ∧ s = rtrimSlash u.str

/-- Tiny concrete site used by witnesses: one page that links to one
other page. -/
def wsite : Str → Option (List Str) :=
  fun s => if s = ("s").data then some [("h").data] else none

/-- Witness environment over `wsite`: hrefs resolve to themselves with no
host. -/
def wenv : CrawlEnv := ⟨wsite, fun _ h => some ⟨none, h⟩, none⟩

/-- Tiny concrete site whose single page links back to the seed. -/
def wsiteLoop : Str → Option (List Str) :=
  fun s => if s = ("s").data then some [("s").data] else none

/-- Witness environment over `wsiteLoop`. -/
def wenvLoop : CrawlEnv := ⟨wsiteLoop, fun _ h => some ⟨none, h⟩, none⟩

/-!
Model of the `url` crate as used by `extract_gitbook_links`: parsing an
absolute https URL into host and path segments, RFC 3986 reference
resolution (`Url::join`) for the absolute, absolute-path and
relative-path cases used here (no query, fragment or dot-segment
handling, which the concrete sites below never exercise), `domain()` and
`to_string()`. -/
structure UrlM where
  host : Str
  segs : List Str
deriving DecidableEq

/-- Split a path (the text after the first slash) into segments. -/
def splitSlash : Str → List Str
  | [] => [[]]
  | c :: cs =>
    match splitSlash cs with
    | s :: ss => if c = '/' then [] :: s :: ss else (c :: s) :: ss
    | [] => [[]]

/-- Parse the host-and-path part following the scheme. -/
def parseHostPath (rest : Str) : UrlM :=
  ⟨rest.takeWhile (fun c => c != '/'),
   match rest.dropWhile (fun c => c != '/') with
   | [] => [[]]
   | _ :: p => splitSlash p⟩

/-- Model of `Url::parse` for absolute https URLs. -/
def urlParse (s : Str) : Option UrlM :=
  if ("https://").data <+: s then some (parseHostPath (s.drop 8)) else none

/-- Model of `Url::to_string`. -/
def urlToString (u : UrlM) : Str :=
  ("https://").data ++ u.host ++ u.segs.foldr (fun seg acc => '/' :: (seg ++ acc)) []

/-- Model of `Url::join` for the reference kinds exercised here. -/
def urlJoin (base : UrlM) (href : Str) : Option UrlM :=
  if ("https://").data <+: href then some (parseHostPath (href.drop 8))
  else
    match href with
    | '/' :: p => some ⟨base.host, splitSlash p⟩
    | [] => some base
    | _ => some ⟨base.host, base.segs.dropLast ++ splitSlash href⟩

/-- The two observations the crawl makes of a joined URL:
`Url::domain()` and `Url::to_string()`. -/
def toResolved (u : UrlM) : ResolvedUrl := ⟨some u.host, urlToString u⟩

/-- The crawl environment the source builds: every href is resolved with
`base.join(href)` — src/crawler.rs line 105 — ignoring the current
page. -/
def codeEnv (fetch : Str → Option (List Str)) (base : UrlM) : CrawlEnv :=
  ⟨fetch, fun _cur href => (urlJoin base href).map toResolved, some base.host⟩

/-- Embedding of `extract_gitbook_links` (src/crawler.rs lines 59-134):
parse the base URL (an error is fatal), crawl, and return the sorted
result set. -/
def extract_gitbook_links (fetch : Str → Option (List Str)) (base_url : Str) (fuel : Nat) :
    Option (List Str) :=
  match urlParse base_url with
  | none => none
  | some base => (crawlLoop (codeEnv fetch base) fuel (initState base_url)).map crawlResult

/-- Refinement comparison for claim C1 — an environment following the
spec's words instead of the source: each href is resolved against the
CURRENT page's URL. -/
def specResolveEnv (fetch : Str → Option (List Str)) (base : UrlM) : CrawlEnv :=
  ⟨fetch, fun cur href => (urlParse cur).bind (fun cu => (urlJoin cu href).map toResolved),
   some base.host⟩

/-- The spec-variant crawl, for the refinement comparison of claim C1. -/
def extract_links_page_resolve (fetch : Str → Option (List Str)) (base_url : Str)
    (fuel : Nat) : Option (List Str) :=
  match urlParse base_url with
  | none => none
  | some base => (crawlLoop (specResolveEnv fetch base) fuel (initState base_url)).map crawlResult

/-- Concrete site for claim C1: the seed page links to a subpage by
absolute path, and the subpage carries a relative href. -/
def site1 : Str → Option (List Str) :=
  fun s =>
    if s = ("https://h.com/a").data then some [("/a/b").data]
    else if s = ("https://h.com/a/b").data then some [("c").data]
    else none

/-!
Embedding of the fetch-convert-save pipeline `download_pages`
(src/main.rs lines 107-169).  The input HashSet is modelled as a list
without duplicates; collecting the suffixed URLs into a new HashSet is
modelled by `List.dedup`.  `fetch` models `download_page`; `writeMd` and
`writeTxt` model the success of `save_markdown` and `save_text`;
`convert` models the external markdown parser behind
`markdown_to_text`; the sanitization uses the embedded `txt_sanitize`.
Each task yields a success flag and the files it wrote (name and
content); the aggregator counts outcomes.  Directory creation
(`create_dir_all`) happens before the tasks and is the only failure the
function itself can return. -/
/-- Embedding of `url_to_filename` (src/utils.rs lines 79-81). -/
def url_to_filename (u : Str) : Str :=
  u.map (fun c => if c = '/' ∨ c = ':' then '_' else c)

/-- The `.md`-suffix normalization of src/main.rs lines 110-118. -/
def addMdSuffix (u : Str) : Str :=
  if (".md").data <:+ u then u else u ++ (".md").data

/-- The set of launched tasks: the distinct suffixed URLs. -/
def tasksOf (urls : List Str) : List Str := (urls.map addMdSuffix).dedup

structure PipelineEnv where
  dirsOk : Bool
  fetch : Str → Option Str
  writeMd : Str → Bool
  writeTxt : Str → Bool
  convert : Str → Str

structure PipeSummary where
  success : Nat
  errors : Nat
  mdFiles : List (Str × Str)
  txtFiles : List (Str × Str)
deriving DecidableEq

inductive PipeResult where
  | ok : PipeSummary → PipeResult
  | err : Str → PipeResult
deriving DecidableEq

/-- One pipeline task (src/main.rs lines 129-138): fetch, save the raw
markdown, convert and sanitize, save the text; the first failure ends
the task with a failure outcome and no further writes. -/
def runTask (env : PipelineEnv) (u : Str) :
    Bool × Option (Str × Str) × Option (Str × Str) :=
  match env.fetch u with
  | none => (false, none, none)
  | some md =>
    if env.writeMd u then
      if env.writeTxt u then
        (true, some (url_to_filename u ++ (".md").data, md),
          some (url_to_filename u ++ (".txt").data, txt_sanitize (env.convert md)))
      else (false, some (url_to_filename u ++ (".md").data, md), none)
    else (false, none, none)

/-- Embedding of `download_pages` (src/main.rs lines 107-169): suffix and
deduplicate the URLs, run one task per distinct URL, and aggregate the
outcomes; partial failures never abort the batch, which always returns
success once the output directories exist. -/
def download_pages (env : PipelineEnv) (urls : List Str) : PipeResult :=
  if env.dirsOk then
    PipeResult.ok
      ⟨(((tasksOf urls).map (runTask env)).filter (fun r => r.1)).length,
       (((tasksOf urls).map (runTask env)).filter (fun r => !r.1)).length,
       ((tasksOf urls).map (runTask env)).filterMap (fun r => r.2.1),
       ((tasksOf urls).map (runTask env)).filterMap (fun r => r.2.2)⟩
  else PipeResult.err (("directory creation failed").data)

/-- Concrete pipeline environment for claim C7: fetching `b.md` fails,
every other fetch succeeds with body `m`, and every file write
succeeds. -/
def env7 : PipelineEnv :=
  ⟨true, fun u => if u = ("b.md").data then none else some (("m").data),
   fun _ => true, fun _ => true, fun t => t⟩

theorem scanF_fuel_irrelevant (m : Str → Option (Str × Nat)) :
    ∀ f₁ f₂ l, l.length ≤ f₁ → l.length ≤ f₂ → scanF m f₁ l = scanF m f₂ l := by
  intro f₁
  induction f₁ with
  | zero =>
    intro f₂ l h₁ _
    have : l = [] := List.eq_nil_of_length_eq_zero (Nat.le_zero.mp h₁)
    subst this
    cases f₂ <;> simp [scanF]
  | succ f ih =>
    intro f₂ l h₁ h₂
    cases l with
    | nil => cases f₂ <;> simp [scanF]
    | cons c cs =>
      cases f₂ with
      | zero => exact absurd h₂ (by simp)
      | succ f' =>
        simp only [List.length_cons, Nat.succ_le_succ_iff] at h₁ h₂
        simp only [scanF]
        cases hm : m (c :: cs) with
        | none => rw [ih f' cs h₁ h₂]
        | some p =>
          obtain ⟨rep, n⟩ := p
          simp only
          have hd : (cs.drop n).length ≤ cs.length := by
            simp [List.length_drop]
          rw [ih f' (cs.drop n) (Nat.le_trans hd h₁) (Nat.le_trans hd h₂)]

theorem scanRW_nil (m : Str → Option (Str × Nat)) : scanRW m [] = [] := rfl

theorem scanRW_cons (m : Str → Option (Str × Nat)) (c : Char) (cs : Str) :
    scanRW m (c :: cs) =
      match m (c :: cs) with
      | some (rep, n) => rep ++ scanRW m (cs.drop n)
      | none => c :: scanRW m cs := by
  unfold scanRW
  simp only [List.length_cons, scanF]
  cases hm : m (c :: cs) with
  | none => rfl
  | some p =>
    obtain ⟨rep, n⟩ := p
    simp only
    have hd : (cs.drop n).length ≤ cs.length := by simp [List.length_drop]
    rw [scanF_fuel_irrelevant m cs.length (cs.drop n).length (cs.drop n) hd (Nat.le_refl _)]

example :
    txt_sanitize (("\x7b% code title=\x22test.rs\x22 %\x7dfn main()\x7b\x7d\x7b% endcode %\x7d").data)
      = ("test.rs fn main()\x7b\x7d").data := by decide

example :
    txt_sanitize (("prefix \x7b% hint style=\x22info\x22 %\x7d middle \x7b% endhint %\x7d suffix").data)
      = ("prefix middle suffix").data := by decide

example :
    txt_sanitize (("\x7b\x7b% x %\x7d% y %\x7d").data) = ("\x7b% y %\x7d").data := by decide

example :
    txt_sanitize (txt_sanitize (("\x7b\x7b% x %\x7d% y %\x7d").data)) = [] := by decide

/-!
Structural lemmas about the sanitizer passes, used for claims C2 and C3.
-/
theorem matchGeneric_ne_brace {c : Char} (h : ¬ c = '{') (cs : Str) :
    matchGeneric (c :: cs) = none := by
  cases cs with
  | nil => rfl
  | cons c2 cs2 => simp [matchGeneric, h]

theorem matchTitle_ne_brace {c : Char} (h : ¬ c = '{') (cs : Str) :
    matchTitle (c :: cs) = none := by
  cases cs with
  | nil => rfl
  | cons c2 cs2 => simp [matchTitle, h]

theorem matchCodeT_ne_brace {c : Char} (h : ¬ c = '{') (cs : Str) :
    matchCodeT (c :: cs) = none := by
  cases cs with
  | nil => rfl
  | cons c2 cs2 => simp [matchCodeT, h]

theorem matchCodeNT_ne_brace {c : Char} (h : ¬ c = '{') (cs : Str) :
    matchCodeNT (c :: cs) = none := by
  cases cs with
  | nil => rfl
  | cons c2 cs2 => simp [matchCodeNT, h]

theorem scanRW_id_of_ne_brace (m : Str → Option (Str × Nat))
    (hm : ∀ c cs, ¬ c = '{' → m (c :: cs) = none) :
    ∀ l : Str, '{' ∉ l → scanRW m l = l := by
  intro l
  induction l with
  | nil => intro _; rfl
  | cons c cs ih =>
    intro h
    have hc : ¬ c = '{' := fun e => h (e ▸ List.mem_cons_self c cs)
    rw [scanRW_cons, hm c cs hc]
    exact congrArg (c :: ·) (ih fun hx => h (List.mem_cons_of_mem c hx))

theorem scanStrip_eq_filter : ∀ l : Str, scanRW matchStrip l = l.filter keptChar := by
  intro l
  induction l with
  | nil => rfl
  | cons c cs ih =>
    rw [scanRW_cons]
    by_cases hc : c ∈ stripSet
    · simp [matchStrip, hc, List.filter_cons, keptChar, ih]
    · simp [matchStrip, hc, List.filter_cons, keptChar, ih]

theorem drop_takeWhile_length (p : Char → Bool) : ∀ l : Str,
    l.drop (l.takeWhile p).length = l.dropWhile p := by
  intro l
  induction l with
  | nil => rfl
  | cons c cs ih =>
    by_cases h : p c
    · simp [List.takeWhile_cons, List.dropWhile_cons, h, ih]
    · simp [List.takeWhile_cons, List.dropWhile_cons, h]

theorem scanSpace_cons_ws {c : Char} (h : wsChar c = true) (cs : Str) :
    scanRW matchSpace (c :: cs) = ' ' :: scanRW matchSpace (cs.dropWhile wsChar) := by
  rw [scanRW_cons]
  simp [matchSpace, h, drop_takeWhile_length]

theorem scanSpace_cons_nws {c : Char} (h : wsChar c = false) (cs : Str) :
    scanRW matchSpace (c :: cs) = c :: scanRW matchSpace cs := by
  rw [scanRW_cons]
  simp [matchSpace, h]

theorem head?_dropWhile_nws (p : Char → Bool) : ∀ l : Str, ∀ x,
    (l.dropWhile p).head? = some x → p x = false := by
  intro l
  induction l with
  | nil => intro x hx; simp at hx
  | cons c cs ih =>
    intro x hx
    rw [List.dropWhile_cons] at hx
    cases h : p c with
    | true =>
      simp only [h, if_true] at hx
      exact ih x hx
    | false =>
      simp only [h, Bool.false_eq_true, if_false, List.head?_cons,
        Option.some.injEq] at hx
      subst hx
      exact h

theorem scanSpace_head? : ∀ l : Str,
    (scanRW matchSpace l).head? = l.head?.map (fun c => if wsChar c then ' ' else c) := by
  intro l
  cases l with
  | nil => rfl
  | cons c cs =>
    cases hw : wsChar c with
    | true => rw [scanSpace_cons_ws hw]; simp [hw]
    | false => rw [scanSpace_cons_nws hw]; simp [hw]

theorem scanSpace_collapsed_aux : ∀ n : Nat, ∀ l : Str, l.length ≤ n →
    collapsedWs (scanRW matchSpace l) := by
  intro n
  induction n with
  | zero =>
    intro l h
    have : l = [] := List.eq_nil_of_length_eq_zero (Nat.le_zero.mp h)
    subst this
    exact ⟨by simp [scanRW_nil], by simp [scanRW_nil]⟩
  | succ n ih =>
    intro l h
    cases l with
    | nil => exact ⟨by simp [scanRW_nil], by simp [scanRW_nil]⟩
    | cons c cs =>
      have hlen : cs.length ≤ n := by simpa using Nat.le_of_succ_le_succ h
      cases hw : wsChar c with
      | false =>
        rw [scanSpace_cons_nws hw]
        obtain ⟨h1, h2⟩ := ih cs hlen
        refine ⟨?_, ?_⟩
        · intro x hx hwx
          rcases List.mem_cons.mp hx with rfl | hx'
          · rw [hw] at hwx; cases hwx
          · exact h1 x hx' hwx
        · rw [List.chain'_cons']
          refine ⟨?_, h2⟩
          intro y _ hcy
          rw [hw] at hcy; cases hcy
      | true =>
        rw [scanSpace_cons_ws hw]
        have hdlen : (cs.dropWhile wsChar).length ≤ n :=
          Nat.le_trans (List.dropWhile_sublist wsChar).length_le hlen
        obtain ⟨h1, h2⟩ := ih (cs.dropWhile wsChar) hdlen
        refine ⟨?_, ?_⟩
        · intro x hx hwx
          rcases List.mem_cons.mp hx with rfl | hx'
          · rfl
          · exact h1 x hx' hwx
        · rw [List.chain'_cons']
          refine ⟨?_, h2⟩
          intro y hy _
          rw [scanSpace_head?] at hy
          cases hz : (cs.dropWhile wsChar).head? with
          | none => rw [hz] at hy; simp at hy
          | some z =>
            rw [hz] at hy
            have hnz := head?_dropWhile_nws wsChar cs z hz
            simp only [Option.map_some', Option.mem_def, Option.some.injEq] at hy
            rw [hnz] at hy
            simp at hy
            subst hy
            exact hnz

theorem scanSpace_collapsed (l : Str) : collapsedWs (scanRW matchSpace l) :=
  scanSpace_collapsed_aux l.length l (Nat.le_refl _)

theorem scanSpace_mem_aux : ∀ n : Nat, ∀ l : Str, l.length ≤ n →
    ∀ x ∈ scanRW matchSpace l, x = ' ' ∨ x ∈ l := by
  intro n
  induction n with
  | zero =>
    intro l h x hx
    have : l = [] := List.eq_nil_of_length_eq_zero (Nat.le_zero.mp h)
    subst this
    simp [scanRW_nil] at hx
  | succ n ih =>
    intro l h x hx
    cases l with
    | nil => simp [scanRW_nil] at hx
    | cons c cs =>
      have hlen : cs.length ≤ n := by simpa using Nat.le_of_succ_le_succ h
      cases hw : wsChar c with
      | false =>
        rw [scanSpace_cons_nws hw] at hx
        rcases List.mem_cons.mp hx with rfl | hx'
        · exact Or.inr (List.mem_cons_self _ _)
        · rcases ih cs hlen x hx' with h' | h'
          · exact Or.inl h'
          · exact Or.inr (List.mem_cons_of_mem c h')
      | true =>
        rw [scanSpace_cons_ws hw] at hx
        rcases List.mem_cons.mp hx with rfl | hx'
        · exact Or.inl rfl
        · have hdlen : (cs.dropWhile wsChar).length ≤ n :=
            Nat.le_trans (List.dropWhile_sublist wsChar).length_le hlen
          rcases ih (cs.dropWhile wsChar) hdlen x hx' with h' | h'
          · exact Or.inl h'
          · exact Or.inr (List.mem_cons_of_mem c ((List.dropWhile_sublist wsChar).subset h'))

theorem scanSpace_mem {l : Str} {x : Char} (hx : x ∈ scanRW matchSpace l) :
    x = ' ' ∨ x ∈ l :=
  scanSpace_mem_aux l.length l (Nat.le_refl _) x hx

theorem scanSpace_id : ∀ l : Str, collapsedWs l → scanRW matchSpace l = l := by
  intro l
  induction l with
  | nil => intro _; rfl
  | cons c cs ih =>
    intro hcol
    obtain ⟨h1, h2⟩ := hcol
    cases hw : wsChar c with
    | false =>
      rw [scanSpace_cons_nws hw]
      refine congrArg (c :: ·) (ih ⟨fun x hx => h1 x (List.mem_cons_of_mem c hx), h2.tail⟩)
    | true =>
      have hc : c = ' ' := h1 c (List.mem_cons_self c cs) hw
      have hhead : ∀ y ∈ cs.head?, wsChar y = false := by
        rw [List.chain'_cons'] at h2
        exact fun y hy => h2.1 y hy hw
      have hdw : cs.dropWhile wsChar = cs := by
        cases cs with
        | nil => rfl
        | cons d ds =>
          rw [List.dropWhile_cons]
          have := hhead d rfl
          simp [this]
      rw [scanSpace_cons_ws hw, hdw, hc,
        ih ⟨fun x hx => h1 x (List.mem_cons_of_mem c hx), h2.tail⟩]

theorem trimEnd_front : ∀ l : Str, trimEnd l <+: l := by
  intro l
  induction l with
  | nil => exact List.prefix_refl _
  | cons c cs ih =>
    simp only [trimEnd]
    cases h : trimEnd cs with
    | nil =>
      by_cases hw : wsChar c
      · simp only [hw, if_true]
        exact List.nil_prefix
      · simp only [hw, if_false]
        exact ⟨cs, rfl⟩
    | cons r rs =>
      rw [h] at ih
      obtain ⟨t, ht⟩ := ih
      exact ⟨t, by rw [List.cons_append, ht]⟩

theorem trimEnd_head? : ∀ l : Str, trimEnd l = [] ∨ (trimEnd l).head? = l.head? := by
  intro l
  cases l with
  | nil => exact Or.inl rfl
  | cons c cs =>
    simp only [trimEnd]
    cases h : trimEnd cs with
    | nil =>
      by_cases hw : wsChar c
      · simp [hw]
      · simp [hw]
    | cons r rs => simp

theorem trimEnd_getLast_nws : ∀ l : Str, ∀ x, (trimEnd l).getLast? = some x →
    wsChar x = false := by
  intro l
  induction l with
  | nil => intro x hx; simp [trimEnd] at hx
  | cons c cs ih =>
    intro x hx
    simp only [trimEnd] at hx
    cases h : trimEnd cs with
    | nil =>
      rw [h] at hx
      cases hw : wsChar c with
      | true => simp [hw] at hx
      | false =>
        simp only [hw, Bool.false_eq_true, if_false, List.getLast?_singleton,
          Option.some.injEq] at hx
        subst hx
        exact hw
    | cons r rs =>
      rw [h] at hx
      rw [List.getLast?_cons_cons] at hx
      exact ih x (h ▸ hx)

theorem trimEnd_id : ∀ l : Str, (∀ x, l.getLast? = some x → wsChar x = false) →
    trimEnd l = l := by
  intro l
  induction l with
  | nil => intro _; rfl
  | cons c cs ih =>
    intro h
    cases cs with
    | nil =>
      have hc : wsChar c = false := h c rfl
      simp [trimEnd, hc]
    | cons d ds =>
      have htail : trimEnd (d :: ds) = d :: ds := by
        refine ih ?_
        intro x hx
        exact h x (by rw [List.getLast?_cons_cons]; exact hx)
      have hunf : trimEnd (c :: d :: ds) =
          match trimEnd (d :: ds) with
          | [] => if wsChar c = true then [] else [c]
          | r => c :: r := rfl
      rw [hunf, htail]

theorem trimStart_id : ∀ l : Str, (∀ x, l.head? = some x → wsChar x = false) →
    trimStart l = l := by
  intro l h
  cases l with
  | nil => rfl
  | cons c cs =>
    have hc : wsChar c = false := h c rfl
    simp [trimStart, List.dropWhile_cons, hc]

theorem collapsedWs_mono {l l' : Str} (h : collapsedWs l) (hinf : l' <:+: l) :
    collapsedWs l' :=
  ⟨fun c hc => h.1 c (hinf.subset hc), List.Chain'.infix h.2 hinf⟩

theorem rustTrim_within (l : Str) : rustTrim l <:+: l := by
  unfold rustTrim
  exact List.IsInfix.trans (List.IsPrefix.isInfix (trimEnd_front (trimStart l)))
    (List.IsSuffix.isInfix (List.dropWhile_suffix wsChar))

theorem rustTrim_head_nws (l : Str) : ∀ x, (rustTrim l).head? = some x →
    wsChar x = false := by
  intro x hx
  unfold rustTrim at hx
  rcases trimEnd_head? (trimStart l) with h | h
  · rw [h] at hx; simp at hx
  · rw [h] at hx
    exact head?_dropWhile_nws wsChar l x hx

theorem rustTrim_getLast_nws (l : Str) : ∀ x, (rustTrim l).getLast? = some x →
    wsChar x = false := by
  intro x hx
  exact trimEnd_getLast_nws (trimStart l) x hx

theorem rustTrim_id (l : Str)
    (h1 : ∀ x, l.head? = some x → wsChar x = false)
    (h2 : ∀ x, l.getLast? = some x → wsChar x = false) : rustTrim l = l := by
  unfold rustTrim
  rw [trimStart_id l h1, trimEnd_id l h2]

theorem txt_sanitize_no_brace (l : Str) (h : '{' ∉ l) :
    txt_sanitize l = rustTrim (scanRW matchSpace (scanRW matchStrip l)) := by
  unfold txt_sanitize
  rw [scanRW_id_of_ne_brace matchCodeT (fun c cs hc => matchCodeT_ne_brace hc cs) l h,
    scanRW_id_of_ne_brace matchCodeNT (fun c cs hc => matchCodeNT_ne_brace hc cs) l h,
    scanRW_id_of_ne_brace matchTitle (fun c cs hc => matchTitle_ne_brace hc cs) l h,
    scanRW_id_of_ne_brace matchGeneric (fun c cs hc => matchGeneric_ne_brace hc cs) l h]

theorem txt_sanitize_out_facts (l : Str) (h : '{' ∉ l) :
    '{' ∉ txt_sanitize l ∧ (∀ c ∈ txt_sanitize l, c ∉ stripSet) ∧
    collapsedWs (txt_sanitize l) ∧
    (∀ x, (txt_sanitize l).head? = some x → wsChar x = false) ∧
    (∀ x, (txt_sanitize l).getLast? = some x → wsChar x = false) := by
  rw [txt_sanitize_no_brace l h]
  have hX1f : scanRW matchStrip l = l.filter keptChar := scanStrip_eq_filter l
  have h1brace : '{' ∉ scanRW matchStrip l := by
    rw [hX1f]
    intro hx
    exact h (List.mem_of_mem_filter hx)
  have h1strip : ∀ c ∈ scanRW matchStrip l, c ∉ stripSet := by
    rw [hX1f]
    intro c hc
    have := List.of_mem_filter hc
    simpa [keptChar] using this
  have h2brace : '{' ∉ scanRW matchSpace (scanRW matchStrip l) := by
    intro hx
    rcases scanSpace_mem hx with he | hm
    · exact absurd he (by decide)
    · exact h1brace hm
  have h2strip : ∀ c ∈ scanRW matchSpace (scanRW matchStrip l), c ∉ stripSet := by
    intro c hc
    rcases scanSpace_mem hc with he | hm
    · subst he; decide
    · exact h1strip c hm
  have h2col : collapsedWs (scanRW matchSpace (scanRW matchStrip l)) :=
    scanSpace_collapsed (scanRW matchStrip l)
  have hinf := rustTrim_within (scanRW matchSpace (scanRW matchStrip l))
  exact ⟨fun hx => h2brace (hinf.subset hx), fun c hc => h2strip c (hinf.subset hc),
    collapsedWs_mono h2col hinf, rustTrim_head_nws _, rustTrim_getLast_nws _⟩

/-- Claim C2 (corrected), counterexample: `txt_sanitize` is not idempotent.
On the input rendered as two-brace, percent, space, x, space, percent,
brace, percent, space, y, space, percent, brace, the generic-tag pass
removes an inner tag and thereby splices together a new generic tag,
which only the second application removes; so sanitizing twice differs
from sanitizing once. -/
theorem c2_sanitize_not_idempotent :
    txt_sanitize (txt_sanitize (("\x7b\x7b% x %\x7d% y %\x7d").data)) ≠
      txt_sanitize (("\x7b\x7b% x %\x7d% y %\x7d").data) := by decide

/-- Claim C2 (amended): `txt_sanitize` is idempotent on every input that
contains no opening-brace character — on such inputs the four
template-rewrite passes are the identity, and the stripping, collapsing
and trimming passes reach a fixed point after one application. -/
theorem c2_sanitize_idempotent_on_brace_free (l : Str) (h : '{' ∉ l) :
    txt_sanitize (txt_sanitize l) = txt_sanitize l := by
  obtain ⟨hb, hs, hc, hh, hl2⟩ := txt_sanitize_out_facts l h
  rw [txt_sanitize_no_brace _ hb, scanStrip_eq_filter,
    List.filter_eq_self.mpr (fun a ha => by simpa [keptChar] using hs a ha),
    scanSpace_id _ hc, rustTrim_id _ hh hl2]

/-- Witness for the amended claim C2 at a concrete brace-free input. -/
theorem c2_sanitize_idempotent_witness :
    '{' ∉ ("a - b  c").data ∧
      txt_sanitize (txt_sanitize (("a - b  c").data)) = txt_sanitize (("a - b  c").data) :=
  ⟨by decide, c2_sanitize_idempotent_on_brace_free (("a - b  c").data) (by decide)⟩

/-- Claim C3 (corrected), counterexample: the character-stripping pass of
`txt_sanitize` removes the vertical-bar character, which is neither a
double quote nor a hyphen nor whitespace, contradicting the claim that
only double quotes and hyphens are removed. -/
theorem c3_strip_removes_bar :
    scanRW matchStrip ['|'] = [] ∧ ¬ ('|' = qm ∨ '|' = '-' ∨ wsChar '|' = true) := by
  constructor
  · decide
  · decide

/-- Claim C3 (amended): the character-stripping pass removes exactly the
double-quote, vertical-bar and hyphen characters — the character class of
the source regex — and keeps every other character, in order. -/
theorem c3_strip_pass_exact (l : Str) :
    scanRW matchStrip l = l.filter (fun c => decide (¬ (c = qm ∨ c = '|' ∨ c = '-'))) := by
  rw [scanStrip_eq_filter]
  refine List.filter_congr ?_
  intro c _
  simp [keptChar, stripSet]

theorem toLowerRust_ne_G : ∀ c, toLowerRust c ≠ 'G' := by
  intro c
  unfold toLowerRust
  split <;> simp_all

theorem lowerStr_no_G (body : Str) : 'G' ∉ lowerStr body := by
  intro h
  obtain ⟨c, _, hc⟩ := List.mem_map.mp h
  exact toLowerRust_ne_G c hc

theorem map_infix_surj (f : Char → Char) (n h : Str) (hinf : n <:+: h.map f) :
    ∃ sub, sub <:+: h ∧ sub.map f = n := by
  obtain ⟨s, t, e⟩ := hinf
  refine ⟨(h.drop s.length).take n.length, ?_, ?_⟩
  · exact List.IsInfix.trans (List.IsPrefix.isInfix ( List.take_prefix _ _))
      (List.IsSuffix.isInfix (List.drop_suffix _ _))
  · rw [List.map_take, List.map_drop, ← e, List.append_assoc, List.drop_left,
      List.take_left]

/-- Claim C6 (corrected), counterexample: lower-casing the body and
testing raw substring membership does not realize case-insensitive
matching for the fingerprint spelled double-underscore GITBOOK
double-underscore — a body equal to that fingerprint contains it
case-insensitively, yet the lowercased body no longer contains the
upper-case literal, so the membership test is false for that
fingerprint. -/
theorem c6_lowercasing_not_realizing :
    ("__GITBOOK__").data ∈ gitbook_indicators ∧
    containsCI (("__GITBOOK__").data) (("__GITBOOK__").data) ∧
    strContainsSub (lowerStr (("__GITBOOK__").data)) (("__GITBOOK__").data) = false :=
  ⟨by decide, ⟨("__GITBOOK__").data, List.infix_refl _, rfl⟩, by decide⟩

/-- Claim C6 (amended): `is_gitbook` returns true if and only if the body
contains, case-insensitively, at least one of the four fingerprints.
The equivalence holds not because lower-casing realizes case-insensitive
matching for each fingerprint separately, but because every fingerprint
contains the all-lowercase fingerprint `gitbook`, whose test subsumes the
others. -/
theorem c6_is_gitbook_iff (body : Str) :
    is_gitbook body = true ↔ ∃ fp ∈ gitbook_indicators, containsCI body fp := by
  constructor
  · intro h
    unfold is_gitbook at h
    rw [List.any_eq_true] at h
    obtain ⟨ind, hind, hdec⟩ := h
    have hinf : ind <:+: lowerStr body := of_decide_eq_true hdec
    simp only [gitbook_indicators, List.mem_cons, List.not_mem_nil, or_false] at hind
    rcases hind with rfl | rfl | rfl | rfl
    · obtain ⟨sub, hsub, hmap⟩ := map_infix_surj toLowerRust _ body hinf
      exact ⟨("gitbook").data, by decide, sub, hsub,
        by unfold lowerStr; rw [hmap]; decide⟩
    · obtain ⟨sub, hsub, hmap⟩ := map_infix_surj toLowerRust _ body hinf
      exact ⟨("data-gitbook").data, by decide, sub, hsub,
        by unfold lowerStr; rw [hmap]; decide⟩
    · exact absurd (hinf.subset (by decide)) (lowerStr_no_G body)
    · obtain ⟨sub, hsub, hmap⟩ := map_infix_surj toLowerRust _ body hinf
      exact ⟨("gitbook.com").data, by decide, sub, hsub,
        by unfold lowerStr; rw [hmap]; decide⟩
  · rintro ⟨fp, hfp, sub, hsub, heq⟩
    have hg : ("gitbook").data <:+: lowerStr fp := by
      simp only [gitbook_indicators, List.mem_cons, List.not_mem_nil, or_false] at hfp
      rcases hfp with rfl | rfl | rfl | rfl <;> decide
    have h4 : ("gitbook").data <:+: lowerStr body :=
      (heq ▸ hg).trans (hsub.map toLowerRust)
    unfold is_gitbook
    rw [List.any_eq_true]
    exact ⟨("gitbook").data, by decide, decide_eq_true h4⟩

theorem mem_insertSorted (a x : Str) : ∀ l : List Str,
    (x ∈ insertSorted a l ↔ x = a ∨ x ∈ l) := by
  intro l
  induction l with
  | nil => simp [insertSorted]
  | cons b bs ih =>
    simp only [insertSorted]
    by_cases h : strLe a b = true
    · rw [if_pos h]
      simp
    · rw [if_neg h]
      simp only [List.mem_cons, ih]
      tauto

theorem mem_sortStrs (x : Str) : ∀ l : List Str, (x ∈ sortStrs l ↔ x ∈ l) := by
  intro l
  induction l with
  | nil => simp [sortStrs]
  | cons a as ih =>
    simp only [sortStrs, mem_insertSorted, ih, List.mem_cons]

theorem addLink_visited (env : CrawlEnv) (cur h : Str) (st : CrawlState) :
    (addLink env cur h st).visited = st.visited := by
  cases hr : env.resolve cur h with
  | none => simp [addLink, hr]
  | some u =>
    by_cases he : isEligible env u = true
    · simp [addLink, hr, he]
    · simp [addLink, hr, he]

theorem addLink_inv (env : CrawlEnv) (cur h : Str) (st : CrawlState)
    (h1 : st.toVisit.Nodup) (h2 : ∀ u ∈ st.toVisit, u ∉ st.visited) :
    (addLink env cur h st).toVisit.Nodup ∧
      ∀ u ∈ (addLink env cur h st).toVisit, u ∉ (addLink env cur h st).visited := by
  cases hr : env.resolve cur h with
  | none => simpa [addLink, hr] using ⟨h1, h2⟩
  | some u =>
    by_cases he : isEligible env u = true
    · simp only [addLink, hr, he, if_true]
      by_cases hg : rtrimSlash u.str ∉ st.visited ∧ rtrimSlash u.str ∉ st.toVisit
      · rw [if_pos hg]
        refine ⟨List.nodup_cons.mpr ⟨hg.2, h1⟩, ?_⟩
        intro x hx
        rcases List.mem_cons.mp hx with rfl | hx'
        · exact hg.1
        · exact h2 x hx'
      · rw [if_neg hg]
        exact ⟨h1, h2⟩
    · simpa [addLink, hr, he] using ⟨h1, h2⟩

theorem addLink_links (env : CrawlEnv) (cur h : Str) (st : CrawlState) :
    ∀ s ∈ (addLink env cur h st).links, s ∈ st.links ∨
      ∃ u, env.resolve cur h = some u ∧ isEligible env u = true ∧ s = rtrimSlash u.str := by
  cases hr : env.resolve cur h with
  | none => simp [addLink, hr]
  | some u =>
    by_cases he : isEligible env u = true
    · simp only [addLink, hr, he, if_true]
      intro s hs
      by_cases hl : rtrimSlash u.str ∈ st.links
      · rw [if_pos hl] at hs
        exact Or.inl hs
      · rw [if_neg hl] at hs
        rcases List.mem_cons.mp hs with rfl | hs'
        · exact Or.inr ⟨u, rfl, he, rfl⟩
        · exact Or.inl hs'
    · simp [addLink, hr, he]

theorem addLink_toVisit (env : CrawlEnv) (cur h : Str) (st : CrawlState) :
    ∀ x ∈ (addLink env cur h st).toVisit, x ∈ st.toVisit ∨
      ∃ u, env.resolve cur h = some u ∧ isEligible env u = true ∧ x = rtrimSlash u.str := by
  cases hr : env.resolve cur h with
  | none => simp [addLink, hr]
  | some u =>
    by_cases he : isEligible env u = true
    · simp only [addLink, hr, he, if_true]
      intro x hx
      by_cases hg : rtrimSlash u.str ∉ st.visited ∧ rtrimSlash u.str ∉ st.toVisit
      · rw [if_pos hg] at hx
        rcases List.mem_cons.mp hx with rfl | hx'
        · exact Or.inr ⟨u, rfl, he, rfl⟩
        · exact Or.inl hx'
      · rw [if_neg hg] at hx
        exact Or.inl hx
    · simp [addLink, hr, he]

theorem addLink_links_mono (env : CrawlEnv) (cur h : Str) (st : CrawlState) :
    ∀ s ∈ st.links, s ∈ (addLink env cur h st).links := by
  cases hr : env.resolve cur h with
  | none => simp [addLink, hr]
  | some u =>
    by_cases he : isEligible env u = true
    · simp only [addLink, hr, he, if_true]
      intro s hs
      by_cases hl : rtrimSlash u.str ∈ st.links
      · rw [if_pos hl]; exact hs
      · rw [if_neg hl]; exact List.mem_cons_of_mem _ hs
    · simp [addLink, hr, he]

theorem foldl_addLink_visited (env : CrawlEnv) (cur : Str) : ∀ (hs : List Str) (st : CrawlState),
    (hs.foldl (fun s h => addLink env cur h s) st).visited = st.visited := by
  intro hs
  induction hs with
  | nil => intro st; rfl
  | cons h hs ih => intro st; rw [List.foldl_cons, ih, addLink_visited]

theorem foldl_addLink_inv (env : CrawlEnv) (cur : Str) : ∀ (hs : List Str) (st : CrawlState),
    st.toVisit.Nodup → (∀ u ∈ st.toVisit, u ∉ st.visited) →
    (hs.foldl (fun s h => addLink env cur h s) st).toVisit.Nodup ∧
      ∀ u ∈ (hs.foldl (fun s h => addLink env cur h s) st).toVisit,
        u ∉ (hs.foldl (fun s h => addLink env cur h s) st).visited := by
  intro hs
  induction hs with
  | nil => intro st h1 h2; exact ⟨h1, h2⟩
  | cons h hs ih =>
    intro st h1 h2
    rw [List.foldl_cons]
    obtain ⟨g1, g2⟩ := addLink_inv env cur h st h1 h2
    exact ih (addLink env cur h st) g1 g2

theorem foldl_addLink_links (env : CrawlEnv) (cur : Str) : ∀ (hs : List Str) (st : CrawlState),
    ∀ s ∈ (hs.foldl (fun s h => addLink env cur h s) st).links, s ∈ st.links ∨
      ∃ href ∈ hs, ∃ u, env.resolve cur href = some u ∧ isEligible env u = true ∧
        s = rtrimSlash u.str := by
  intro hs
  induction hs with
  | nil => intro st s hsmem; exact Or.inl hsmem
  | cons h hs ih =>
    intro st s hsmem
    rw [List.foldl_cons] at hsmem
    rcases ih (addLink env cur h st) s hsmem with hin | ⟨href, hh, u, hu⟩
    · rcases addLink_links env cur h st s hin with hin' | ⟨u, hu⟩
      · exact Or.inl hin'
      · exact Or.inr ⟨h, List.mem_cons_self _ _, u, hu⟩
    · exact Or.inr ⟨href, List.mem_cons_of_mem _ hh, u, hu⟩

theorem foldl_addLink_toVisit (env : CrawlEnv) (cur : Str) : ∀ (hs : List Str) (st : CrawlState),
    ∀ x ∈ (hs.foldl (fun s h => addLink env cur h s) st).toVisit, x ∈ st.toVisit ∨
      ∃ href ∈ hs, ∃ u, env.resolve cur href = some u ∧ isEligible env u = true ∧
        x = rtrimSlash u.str := by
  intro hs
  induction hs with
  | nil => intro st x hx; exact Or.inl hx
  | cons h hs ih =>
    intro st x hx
    rw [List.foldl_cons] at hx
    rcases ih (addLink env cur h st) x hx with hin | ⟨href, hh, u, hu⟩
    · rcases addLink_toVisit env cur h st x hin with hin' | ⟨u, hu⟩
      · exact Or.inl hin'
      · exact Or.inr ⟨h, List.mem_cons_self _ _, u, hu⟩
    · exact Or.inr ⟨href, List.mem_cons_of_mem _ hh, u, hu⟩

theorem foldl_addLink_links_mono (env : CrawlEnv) (cur : Str) :
    ∀ (hs : List Str) (st : CrawlState),
    ∀ s ∈ st.links, s ∈ (hs.foldl (fun s h => addLink env cur h s) st).links := by
  intro hs
  induction hs with
  | nil => intro st s hs'; exact hs'
  | cons h hs ih =>
    intro st s hs'
    rw [List.foldl_cons]
    exact ih (addLink env cur h st) s (addLink_links_mono env cur h st s hs')

theorem crawlIter_visited_mono (env : CrawlEnv) (cur : Str) (st : CrawlState) :
    st.visited ⊆ (crawlIter env cur st).visited := by
  by_cases hv : cur ∈ st.visited
  · simp [crawlIter, hv]
  · cases hf : env.fetch cur with
    | none =>
      simp only [crawlIter, hv, if_false, hf]
      exact fun x hx => List.mem_cons_of_mem _ hx
    | some hrefs =>
      simp only [crawlIter, hv, if_false, hf]
      intro x hx
      rw [foldl_addLink_visited]
      exact List.mem_cons_of_mem _ hx

theorem crawlIter_cur_visited (env : CrawlEnv) (cur : Str) (st : CrawlState) :
    cur ∈ (crawlIter env cur st).visited := by
  by_cases hv : cur ∈ st.visited
  · simp [crawlIter, hv]
  · cases hf : env.fetch cur with
    | none =>
      simp only [crawlIter, hv, if_false, hf]
      exact List.mem_cons_self _ _
    | some hrefs =>
      simp only [crawlIter, hv, if_false, hf]
      rw [foldl_addLink_visited]
      exact List.mem_cons_self _ _

theorem crawlIter_visited_eq (env : CrawlEnv) (cur : Str) (st : CrawlState)
    (hv : cur ∉ st.visited) : (crawlIter env cur st).visited = cur :: st.visited := by
  cases hf : env.fetch cur with
  | none => simp [crawlIter, hv, hf]
  | some hrefs =>
    simp only [crawlIter, hv, if_false, hf]
    rw [foldl_addLink_visited]

theorem crawlIter_inv (env : CrawlEnv) (cur : Str) (st : CrawlState)
    (h1 : (cur :: st.toVisit).Nodup) (h2 : ∀ u ∈ cur :: st.toVisit, u ∉ st.visited) :
    CrawlInv (crawlIter env cur st) := by
  obtain ⟨hcur, hnd⟩ := List.nodup_cons.mp h1
  have hcv : cur ∉ st.visited := h2 cur (List.mem_cons_self _ _)
  have htail : ∀ u ∈ st.toVisit, u ∉ cur :: st.visited := by
    intro u hu
    intro hmem
    rcases List.mem_cons.mp hmem with rfl | hmem'
    · exact hcur hu
    · exact h2 u (List.mem_cons_of_mem _ hu) hmem'
  cases hf : env.fetch cur with
  | none =>
    simp only [crawlIter, hcv, if_false, hf]
    exact ⟨hnd, htail⟩
  | some hrefs =>
    simp only [crawlIter, hcv, if_false, hf]
    exact foldl_addLink_inv env cur hrefs ⟨cur :: st.visited, st.toVisit, st.links⟩ hnd htail

theorem crawlIter_links (env : CrawlEnv) (cur : Str) (st : CrawlState) :
    ∀ s ∈ (crawlIter env cur st).links, s ∈ st.links ∨ HrefProv env cur s := by
  by_cases hv : cur ∈ st.visited
  · simp only [crawlIter, hv, if_true]
    exact fun s hs => Or.inl hs
  · cases hf : env.fetch cur with
    | none =>
      simp only [crawlIter, hv, if_false, hf]
      exact fun s hs => Or.inl hs
    | some hrefs =>
      simp only [crawlIter, hv, if_false, hf]
      intro s hs
      rcases foldl_addLink_links env cur hrefs ⟨cur :: st.visited, st.toVisit, st.links⟩ s hs with
        hin | ⟨href, hh, u, hu, he, hs'⟩
      · exact Or.inl hin
      · exact Or.inr ⟨hrefs, hf, href, hh, u, hu, he, hs'⟩

theorem crawlIter_toVisit (env : CrawlEnv) (cur : Str) (st : CrawlState) :
    ∀ x ∈ (crawlIter env cur st).toVisit, x ∈ st.toVisit ∨ HrefProv env cur x := by
  by_cases hv : cur ∈ st.visited
  · simp only [crawlIter, hv, if_true]
    exact fun x hx => Or.inl hx
  · cases hf : env.fetch cur with
    | none =>
      simp only [crawlIter, hv, if_false, hf]
      exact fun x hx => Or.inl hx
    | some hrefs =>
      simp only [crawlIter, hv, if_false, hf]
      intro x hx
      rcases foldl_addLink_toVisit env cur hrefs ⟨cur :: st.visited, st.toVisit, st.links⟩ x hx with
        hin | ⟨href, hh, u, hu, he, hx'⟩
      · exact Or.inl hin
      · exact Or.inr ⟨hrefs, hf, href, hh, u, hu, he, hx'⟩

theorem crawlLoop_sound (env : CrawlEnv) : ∀ (fuel : Nat) (st st' : CrawlState),
    crawlLoop env fuel st = some st' →
    st'.toVisit = [] ∧ st.visited ⊆ st'.visited := by
  intro fuel
  induction fuel with
  | zero =>
    intro st st' h
    obtain ⟨v, tv, l⟩ := st
    cases tv with
    | nil =>
      simp only [crawlLoop, Option.some.injEq] at h
      subst h
      exact ⟨rfl, fun x hx => hx⟩
    | cons cur rest => simp [crawlLoop] at h
  | succ n ih =>
    intro st st' h
    obtain ⟨v, tv, l⟩ := st
    cases tv with
    | nil =>
      simp only [crawlLoop, Option.some.injEq] at h
      subst h
      exact ⟨rfl, fun x hx => hx⟩
    | cons cur rest =>
      simp only [crawlLoop] at h
      obtain ⟨hnil, hsub⟩ := ih _ st' h
      exact ⟨hnil, fun x hx => hsub (crawlIter_visited_mono env cur ⟨v, rest, l⟩ hx)⟩

theorem crawlLoop_links_prov (env : CrawlEnv) : ∀ (fuel : Nat) (st st' : CrawlState),
    crawlLoop env fuel st = some st' →
    ∀ s ∈ st'.links, s ∈ st.links ∨ ∃ page ∈ st'.visited, HrefProv env page s := by
  intro fuel
  induction fuel with
  | zero =>
    intro st st' h s hs
    obtain ⟨v, tv, l⟩ := st
    cases tv with
    | nil =>
      simp only [crawlLoop, Option.some.injEq] at h
      subst h
      exact Or.inl hs
    | cons cur rest => simp [crawlLoop] at h
  | succ n ih =>
    intro st st' h s hs
    obtain ⟨v, tv, l⟩ := st
    cases tv with
    | nil =>
      simp only [crawlLoop, Option.some.injEq] at h
      subst h
      exact Or.inl hs
    | cons cur rest =>
      simp only [crawlLoop] at h
      rcases ih _ st' h s hs with hin | hprov
      · rcases crawlIter_links env cur ⟨v, rest, l⟩ s hin with hin' | hp
        · exact Or.inl hin'
        · exact Or.inr ⟨cur, (crawlLoop_sound env n _ st' h).2 (crawlIter_cur_visited env cur _), hp⟩
      · exact Or.inr hprov

theorem filter_len_le {α : Type} (p q : α → Bool) (himp : ∀ x, q x = true → p x = true) :
    ∀ l : List α, (l.filter q).length ≤ (l.filter p).length := by
  intro l
  induction l with
  | nil => simp
  | cons x xs ih =>
    simp only [List.filter_cons]
    cases hq : q x with
    | true =>
      rw [himp x hq]
      simpa using ih
    | false =>
      cases hp : p x with
      | true =>
        simp only [if_true]
        exact Nat.le_trans ih (by simp)
      | false => simpa using ih

theorem filter_len_lt {α : Type} (p q : α → Bool) (himp : ∀ x, q x = true → p x = true)
    (a : α) : ∀ l : List α, a ∈ l → p a = true → q a = false →
    (l.filter q).length < (l.filter p).length := by
  intro l
  induction l with
  | nil => intro h; simp at h
  | cons x xs ih =>
    intro ha hpa hqa
    rcases List.mem_cons.mp ha with rfl | ha'
    · simp only [List.filter_cons, hpa, hqa, Bool.false_eq_true, if_false, if_true]
      exact Nat.lt_succ_of_le (filter_len_le p q himp xs)
    · have hlt := ih ha' hpa hqa
      simp only [List.filter_cons]
      cases hq : q x with
      | true =>
        rw [himp x hq]
        simpa using Nat.succ_lt_succ hlt
      | false =>
        cases hp : p x with
        | true =>
          simp only [if_true, Bool.false_eq_true, if_false]
          exact Nat.lt_succ_of_lt hlt
        | false => simpa using hlt

theorem crawl_term_aux (env : CrawlEnv) (U : List Str)
    (hclosed : ∀ page hrefs href u, env.fetch page = some hrefs → href ∈ hrefs →
      env.resolve page href = some u → isEligible env u = true → rtrimSlash u.str ∈ U) :
    ∀ (n : Nat) (st : CrawlState), CrawlInv st → (∀ x ∈ st.toVisit, x ∈ U) →
      (U.dedup.filter (fun x => decide (x ∉ st.visited))).length ≤ n →
      ∃ st', crawlLoop env n st = some st' := by
  intro n
  induction n with
  | zero =>
    intro st hinv hsub hcnt
    obtain ⟨v, tv, l⟩ := st
    cases tv with
    | nil => exact ⟨⟨v, [], l⟩, rfl⟩
    | cons cur rest =>
      exfalso
      have hcU : cur ∈ U.dedup := List.mem_dedup.mpr (hsub cur (List.mem_cons_self _ _))
      have hcv : cur ∉ v := hinv.2 cur (List.mem_cons_self _ _)
      have hmem : cur ∈ U.dedup.filter (fun x => decide (x ∉ v)) :=
        List.mem_filter.mpr ⟨hcU, by simpa using hcv⟩
      have h0 : U.dedup.filter (fun x => decide (x ∉ v)) = [] :=
        List.eq_nil_of_length_eq_zero (Nat.le_zero.mp hcnt)
      rw [h0] at hmem
      exact (List.not_mem_nil cur) hmem
  | succ n ih =>
    intro st hinv hsub hcnt
    obtain ⟨v, tv, l⟩ := st
    cases tv with
    | nil => exact ⟨⟨v, [], l⟩, rfl⟩
    | cons cur rest =>
      have hcv : cur ∉ v := hinv.2 cur (List.mem_cons_self _ _)
      have hvis : (crawlIter env cur ⟨v, rest, l⟩).visited = cur :: v :=
        crawlIter_visited_eq env cur ⟨v, rest, l⟩ hcv
      have hinv1 : CrawlInv (crawlIter env cur ⟨v, rest, l⟩) :=
        crawlIter_inv env cur ⟨v, rest, l⟩ hinv.1 hinv.2
      have hsub1 : ∀ x ∈ (crawlIter env cur ⟨v, rest, l⟩).toVisit, x ∈ U := by
        intro x hx
        rcases crawlIter_toVisit env cur ⟨v, rest, l⟩ x hx with hin |
          ⟨hrefs, hf, href, hh, u, hu, he, hx'⟩
        · exact hsub x (List.mem_cons_of_mem _ hin)
        · exact hx' ▸ hclosed cur hrefs href u hf hh hu he
      have hcnt1 :
          (U.dedup.filter (fun x => decide (x ∉ (crawlIter env cur ⟨v, rest, l⟩).visited))).length
            ≤ n := by
        rw [hvis]
        have hlt := filter_len_lt (fun x => decide (x ∉ v)) (fun x => decide (x ∉ cur :: v))
          (fun x hx => by
            simp only [decide_eq_true_eq] at hx ⊢
            exact fun h' => hx (List.mem_cons_of_mem _ h'))
          cur U.dedup (List.mem_dedup.mpr (hsub cur (List.mem_cons_self _ _)))
          (by simpa using hcv) (by simp)
        have hcnt' : (U.dedup.filter (fun x => decide (x ∉ v))).length ≤ n + 1 := hcnt
        omega
      obtain ⟨st', hst'⟩ := ih (crawlIter env cur ⟨v, rest, l⟩) hinv1 hsub1 hcnt1
      exact ⟨st', hst'⟩

/-- Claim C5 (confirmed): every entry of the returned link list of a
completed crawl originates from a resolved link that passed the
eligibility filter — its domain equals the base domain, its string form
contains no hash character and does not end in any of the four asset
extensions — and the entry is that link's trailing-slash normalization.
Contrapositively, a resolved link failing any of these conditions is
never inserted, regardless of the page it was found on. -/
theorem c5_filter_provenance (env : CrawlEnv) (b : Str) (fuel : Nat) (st' : CrawlState)
    (h : crawlLoop env fuel (initState b) = some st') :
    ∀ s ∈ crawlResult st', ∃ page ∈ st'.visited, ∃ hrefs, env.fetch page = some hrefs ∧
      ∃ href ∈ hrefs, ∃ u, env.resolve page href = some u ∧
        u.dom = env.baseDom ∧ '#' ∉ u.str ∧
        ¬ (".pdf").data <:+ u.str ∧ ¬ (".zip").data <:+ u.str ∧
        ¬ (".jpg").data <:+ u.str ∧ ¬ (".png").data <:+ u.str ∧
        s = rtrimSlash u.str := by
  intro s hs
  rw [crawlResult, mem_sortStrs] at hs
  rcases crawlLoop_links_prov env fuel _ st' h s hs with hin |
    ⟨page, hpage, hrefs, hf, href, hh, u, hu, helig, hs'⟩
  · simp [initState] at hin
  · simp only [isEligible, Bool.and_eq_true, Bool.not_eq_eq_eq_not, Bool.not_true,
      decide_eq_true_eq, decide_eq_false_iff_not] at helig
    obtain ⟨⟨⟨⟨⟨hd, hhash⟩, hpdf⟩, hzip⟩, hjpg⟩, hpng⟩ := helig
    exact ⟨page, hpage, hrefs, hf, href, hh, u, hu, hd, hhash, hpdf, hzip, hjpg, hpng, hs'⟩

/-- Witness for claim C5 at a concrete crawl. -/
theorem c5_witness :
    crawlLoop wenv 2 (initState (("s").data)) =
      some ⟨[("h").data, ("s").data], [], [("h").data]⟩ ∧
    ("h").data ∈ crawlResult ⟨[("h").data, ("s").data], [], [("h").data]⟩ ∧
    (∃ page ∈ (⟨[("h").data, ("s").data], [], [("h").data]⟩ : CrawlState).visited,
      ∃ hrefs, wenv.fetch page = some hrefs ∧
      ∃ href ∈ hrefs, ∃ u, wenv.resolve page href = some u ∧
        u.dom = wenv.baseDom ∧ '#' ∉ u.str ∧
        ¬ (".pdf").data <:+ u.str ∧ ¬ (".zip").data <:+ u.str ∧
        ¬ (".jpg").data <:+ u.str ∧ ¬ (".png").data <:+ u.str ∧
        ("h").data = rtrimSlash u.str) :=
  ⟨by decide, by decide,
    c5_filter_provenance wenv (("s").data) 2 ⟨[("h").data, ("s").data], [], [("h").data]⟩
      (by decide) (("h").data) (by decide)⟩

/-- Claim C8 (confirmed): the initial frontier satisfies the invariant —
no duplicates and disjoint from the (empty) visited set — and one
iteration of the crawl loop both preserves the invariant and only grows
the visited set. -/
theorem c8_frontier_invariant :
    (∀ b : Str, CrawlInv (initState b)) ∧
    (∀ (env : CrawlEnv) (st : CrawlState) (cur : Str),
      CrawlInv ⟨st.visited, cur :: st.toVisit, st.links⟩ →
      CrawlInv (crawlIter env cur st) ∧ st.visited ⊆ (crawlIter env cur st).visited) := by
  constructor
  · intro b
    exact ⟨List.nodup_singleton b, by simp [initState]⟩
  · intro env st cur hinv
    exact ⟨crawlIter_inv env cur st hinv.1 hinv.2, crawlIter_visited_mono env cur st⟩

/-- Witness for claim C8 at a concrete iteration. -/
theorem c8_witness :
    CrawlInv ⟨([] : List Str), ("s").data :: [], []⟩ ∧
    (CrawlInv (crawlIter wenv (("s").data) ⟨[], [], []⟩) ∧
      ([] : List Str) ⊆ (crawlIter wenv (("s").data) ⟨[], [], []⟩).visited) :=
  ⟨⟨by decide, by decide⟩,
    c8_frontier_invariant.2 wenv ⟨[], [], []⟩ (("s").data) ⟨by decide, by decide⟩⟩

/-- Claim C9 (confirmed): if a finite list `U` of URLs contains the seed
and is closed under the normalized eligible links of every fetchable
page, then the crawl loop reaches an empty frontier within `U.dedup.length`
iterations — the traversal terminates on every finite site, with no
explicit depth or page-count cap needed, because each iteration visits a
fresh URL of `U`. -/
theorem c9_termination (env : CrawlEnv) (U : List Str) (b : Str) (hb : b ∈ U)
    (hclosed : ∀ page hrefs href u, env.fetch page = some hrefs → href ∈ hrefs →
      env.resolve page href = some u → isEligible env u = true → rtrimSlash u.str ∈ U) :
    ∃ st', crawlLoop env U.dedup.length (initState b) = some st' ∧ st'.toVisit = [] := by
  obtain ⟨st', h⟩ := crawl_term_aux env U hclosed U.dedup.length (initState b)
    ⟨List.nodup_singleton b, by simp [initState]⟩
    (by
      intro x hx
      simp only [initState] at hx
      rcases List.mem_singleton.mp hx with rfl
      exact hb)
    (List.length_filter_le _ U.dedup)
  exact ⟨st', h, (crawlLoop_sound env _ _ _ h).1⟩

/-- Witness for claim C9 at a concrete two-page site. -/
theorem c9_witness :
    (("s").data ∈ [("s").data, ("h").data]) ∧
    (∃ st', crawlLoop wenv ([("s").data, ("h").data] : List Str).dedup.length
        (initState (("s").data)) = some st' ∧ st'.toVisit = []) := by
  refine ⟨by decide, c9_termination wenv [("s").data, ("h").data] (("s").data) (by decide) ?_⟩
  intro page hrefs href u hf hh hu he
  simp only [wenv] at hu hf
  simp only [wsite] at hf
  by_cases hp : page = ("s").data
  · rw [if_pos hp] at hf
    injection hf with hf'
    subst hf'
    rcases List.mem_singleton.mp hh with rfl
    injection hu with hu'
    subst hu'
    decide
  · rw [if_neg hp] at hf
    cases hf

/-- Claim C10 (confirmed): the seed is not automatically part of the
crawl output — if the returned list contains the normalized base URL,
then some visited page was fetched and carried an eligible anchor href
whose resolved, normalized link equals it.  Contrapositively, a site
whose pages never link back to the seed yields a result list without the
seed. -/
theorem c10_seed_not_automatic (env : CrawlEnv) (b : Str) (fuel : Nat) (st' : CrawlState)
    (h : crawlLoop env fuel (initState b) = some st')
    (hmem : rtrimSlash b ∈ crawlResult st') :
    ∃ page ∈ st'.visited, HrefProv env page (rtrimSlash b) := by
  rw [crawlResult, mem_sortStrs] at hmem
  rcases crawlLoop_links_prov env fuel _ st' h _ hmem with hin | hprov
  · simp [initState] at hin
  · exact hprov

/-- Witness for claim C10 at a concrete site that links back to its
seed. -/
theorem c10_witness :
    crawlLoop wenvLoop 1 (initState (("s").data)) =
      some ⟨[("s").data], [], [("s").data]⟩ ∧
    rtrimSlash (("s").data) ∈ crawlResult ⟨[("s").data], [], [("s").data]⟩ ∧
    (∃ page ∈ (⟨[("s").data], [], [("s").data]⟩ : CrawlState).visited,
      HrefProv wenvLoop page (rtrimSlash (("s").data))) :=
  ⟨by decide, by decide,
    c10_seed_not_automatic wenvLoop (("s").data) 1 ⟨[("s").data], [], [("s").data]⟩
      (by decide) (by decide)⟩

/-- Claim C1 (corrected), counterexample: on `site1` the relative href
`c` found on page `https://h.com/a/b` is resolved against the BASE url
`https://h.com/a`, producing `https://h.com/c`; the page-relative link
`https://h.com/a/c` that the claim prescribes is absent from the crawl
output, and the spec-variant crawl that resolves against the current
page produces a different result list. -/
theorem c1_counterexample :
    extract_gitbook_links site1 (("https://h.com/a").data) 5 =
      some [("https://h.com/a/b").data, ("https://h.com/c").data] ∧
    ("https://h.com/a/c").data ∉
      [("https://h.com/a/b").data, ("https://h.com/c").data] ∧
    extract_links_page_resolve site1 (("https://h.com/a").data) 5 =
      some [("https://h.com/a/b").data, ("https://h.com/a/c").data] :=
  ⟨by decide, by decide, by decide⟩

/-- Claim C1 (amended): during crawling every href is resolved against
the crawl's BASE url, not the current page's URL — every entry of the
output of `extract_gitbook_links`'s loop is the normalized string of
`base.join(href)` for some href of some fetched page. -/
theorem c1_amended (fetch : Str → Option (List Str)) (base : UrlM) (base_url : Str)
    (fuel : Nat) (st' : CrawlState)
    (h : crawlLoop (codeEnv fetch base) fuel (initState base_url) = some st') :
    ∀ s ∈ crawlResult st', ∃ page ∈ st'.visited, ∃ hrefs, fetch page = some hrefs ∧
      ∃ href ∈ hrefs, ∃ u, urlJoin base href = some u ∧
        isEligible (codeEnv fetch base) (toResolved u) = true ∧
        s = rtrimSlash (urlToString u) := by
  intro s hs
  rw [crawlResult, mem_sortStrs] at hs
  rcases crawlLoop_links_prov _ fuel _ st' h s hs with hin |
    ⟨page, hp, hrefs, hf, href, hh, ru, hru, he, hs'⟩
  · simp [initState] at hin
  · simp only [codeEnv] at hru hf
    rcases Option.map_eq_some'.mp hru with ⟨u, hu, rfl⟩
    exact ⟨page, hp, hrefs, hf, href, hh, u, hu, he, hs'⟩

/-- Witness for the amended claim C1 at the concrete site `site1`. -/
theorem c1_amended_witness :
    crawlLoop (codeEnv site1 ⟨("h.com").data, [("a").data]⟩) 5
        (initState (("https://h.com/a").data)) =
      some ⟨[("https://h.com/c").data, ("https://h.com/a/b").data, ("https://h.com/a").data],
        [], [("https://h.com/c").data, ("https://h.com/a/b").data]⟩ ∧
    ("https://h.com/a/b").data ∈ crawlResult
      ⟨[("https://h.com/c").data, ("https://h.com/a/b").data, ("https://h.com/a").data],
        [], [("https://h.com/c").data, ("https://h.com/a/b").data]⟩ ∧
    (∃ page ∈ (⟨[("https://h.com/c").data, ("https://h.com/a/b").data,
          ("https://h.com/a").data], [],
          [("https://h.com/c").data, ("https://h.com/a/b").data]⟩ : CrawlState).visited,
      ∃ hrefs, site1 page = some hrefs ∧ ∃ href ∈ hrefs, ∃ u,
        urlJoin ⟨("h.com").data, [("a").data]⟩ href = some u ∧
        isEligible (codeEnv site1 ⟨("h.com").data, [("a").data]⟩) (toResolved u) = true ∧
        ("https://h.com/a/b").data = rtrimSlash (urlToString u)) :=
  ⟨by decide, by decide,
    c1_amended site1 ⟨("h.com").data, [("a").data]⟩ (("https://h.com/a").data) 5
      ⟨[("https://h.com/c").data, ("https://h.com/a/b").data, ("https://h.com/a").data],
        [], [("https://h.com/c").data, ("https://h.com/a/b").data]⟩
      (by decide) (("https://h.com/a/b").data) (by decide)⟩

theorem length_filter_add_not {α : Type} (p : α → Bool) : ∀ l : List α,
    (l.filter p).length + (l.filter (fun x => !p x)).length = l.length := by
  intro l
  induction l with
  | nil => rfl
  | cons x xs ih =>
    simp only [List.filter_cons]
    cases hp : p x with
    | true => simp [ih]; omega
    | false => simp [ih]; omega

/-- Claim C4 (corrected), counterexample: the two-element input set
containing `a` and `a.md` collapses to a single task, because the
`.md`-suffix normalization maps both to `a.md` and the suffixed URLs are
collected into a set — so the number of launched tasks is one, not the
claimed two. -/
theorem c4_task_collapse :
    List.Nodup [("a").data, ("a.md").data] ∧
    ([("a").data, ("a.md").data] : List Str).length = 2 ∧
    (tasksOf [("a").data, ("a.md").data]).length = 1 ∧
    (tasksOf [("a").data, ("a.md").data]).length ≠
      ([("a").data, ("a.md").data] : List Str).length := by
  refine ⟨by decide, by decide, by decide, by decide⟩

/-- Claim C4 (amended): the pipeline launches one task per DISTINCT
`.md`-suffixed URL; when no two input URLs collide under the suffix rule
the task count — and hence the number of aggregated outcomes — equals
the input count. -/
theorem c4_one_task_per_url (urls : List Str) (hnd : urls.Nodup)
    (hinj : ∀ a ∈ urls, ∀ b ∈ urls, addMdSuffix a = addMdSuffix b → a = b)
    (env : PipelineEnv) (hdirs : env.dirsOk = true) :
    (tasksOf urls).length = urls.length ∧
    ∀ s, download_pages env urls = PipeResult.ok s → s.success + s.errors = urls.length := by
  have hlen : (tasksOf urls).length = urls.length := by
    unfold tasksOf
    rw [List.Nodup.dedup (hnd.map_on hinj), List.length_map]
  refine ⟨hlen, ?_⟩
  intro s hs
  unfold download_pages at hs
  rw [if_pos hdirs] at hs
  injection hs with hs'
  subst hs'
  have := length_filter_add_not (fun r => r.1) ((tasksOf urls).map (runTask env))
  simpa [List.length_map, hlen] using this

/-- Witness for the amended claim C4 at a concrete two-URL input. -/
theorem c4_witness :
    List.Nodup [("a").data, ("b").data] ∧
    (tasksOf [("a").data, ("b").data]).length = ([("a").data, ("b").data] : List Str).length :=
  ⟨by decide,
    (c4_one_task_per_url [("a").data, ("b").data] (by decide) (by decide)
      ⟨true, fun _ => none, fun _ => true, fun _ => true, fun t => t⟩ rfl).1⟩

/-- Claim C7 (corrected), counterexample: with the three input URLs `a`,
`a.md` and `b`, where exactly one task's fetch fails and every file
write succeeds, the pipeline reports one success and one failure and
writes one file per store — not two successes and two files — because
`a` and `a.md` collapse to a single task under the `.md`-suffix
normalization. -/
theorem c7_partial_failure_collapse :
    List.Nodup [("a").data, ("a.md").data, ("b").data] ∧
    ([("a").data, ("a.md").data, ("b").data] : List Str).length = 3 ∧
    ((tasksOf [("a").data, ("a.md").data, ("b").data]).filter
      (fun u => (env7.fetch u).isNone)).length = 1 ∧
    env7.writeMd = (fun _ => true) ∧ env7.writeTxt = (fun _ => true) ∧
    download_pages env7 [("a").data, ("a.md").data, ("b").data] =
      PipeResult.ok ⟨1, 1, [(("a.md.md").data, ("m").data)],
        [(("a.md.txt").data, ("m").data)]⟩ ∧
    (1 : Nat) ≠ 2 :=
  ⟨by decide, by decide, by decide, rfl, rfl, by decide, by decide⟩

/-- Claim C7 (amended): for three input URLs that remain pairwise
distinct after the `.md`-suffix normalization, when exactly one task's
fetch fails and every other fetch and file write succeeds, the pipeline
returns success — never an error — reporting two successes and one
failure, with exactly two files written in each output store. -/
theorem c7_partial_failure (env : PipelineEnv) (u1 u2 u3 m2 m3 : Str)
    (hdirs : env.dirsOk = true)
    (h12 : addMdSuffix u1 ≠ addMdSuffix u2)
    (h13 : addMdSuffix u1 ≠ addMdSuffix u3)
    (h23 : addMdSuffix u2 ≠ addMdSuffix u3)
    (hf1 : env.fetch (addMdSuffix u1) = none)
    (hf2 : env.fetch (addMdSuffix u2) = some m2)
    (hf3 : env.fetch (addMdSuffix u3) = some m3)
    (hw : ∀ x, env.writeMd x = true) (hwt : ∀ x, env.writeTxt x = true) :
    download_pages env [u1, u2, u3] = PipeResult.ok
      ⟨2, 1,
       [(url_to_filename (addMdSuffix u2) ++ (".md").data, m2),
        (url_to_filename (addMdSuffix u3) ++ (".md").data, m3)],
       [(url_to_filename (addMdSuffix u2) ++ (".txt").data, txt_sanitize (env.convert m2)),
        (url_to_filename (addMdSuffix u3) ++ (".txt").data, txt_sanitize (env.convert m3))]⟩ := by
  have ht : tasksOf [u1, u2, u3] = [addMdSuffix u1, addMdSuffix u2, addMdSuffix u3] := by
    unfold tasksOf
    simp only [List.map_cons, List.map_nil]
    rw [List.dedup_cons_of_not_mem (by simp [h12, h13]),
        List.dedup_cons_of_not_mem (by simp [h23]),
        List.dedup_cons_of_not_mem (by simp), List.dedup_nil]
  have hr1 : runTask env (addMdSuffix u1) = (false, none, none) := by
    unfold runTask
    rw [hf1]
  have hr2 : runTask env (addMdSuffix u2) = (true,
      some (url_to_filename (addMdSuffix u2) ++ (".md").data, m2),
      some (url_to_filename (addMdSuffix u2) ++ (".txt").data,
        txt_sanitize (env.convert m2))) := by
    unfold runTask
    rw [hf2]
    simp [hw, hwt]
  have hr3 : runTask env (addMdSuffix u3) = (true,
      some (url_to_filename (addMdSuffix u3) ++ (".md").data, m3),
      some (url_to_filename (addMdSuffix u3) ++ (".txt").data,
        txt_sanitize (env.convert m3))) := by
    unfold runTask
    rw [hf3]
    simp [hw, hwt]
  unfold download_pages
  rw [if_pos hdirs, ht]
  simp only [List.map_cons, List.map_nil, hr1, hr2, hr3, List.filter_cons, List.filter_nil,
    List.filterMap_cons, List.filterMap_nil]
  simp

/-- Witness for the amended claim C7 at a concrete environment. -/
theorem c7_witness :
    env7.fetch (addMdSuffix (("b").data)) = none ∧
    env7.fetch (addMdSuffix (("a").data)) = some (("m").data) ∧
    download_pages env7 [("b").data, ("a").data, ("c").data] = PipeResult.ok
      ⟨2, 1,
       [(url_to_filename (addMdSuffix (("a").data)) ++ (".md").data, ("m").data),
        (url_to_filename (addMdSuffix (("c").data)) ++ (".md").data, ("m").data)],
       [(url_to_filename (addMdSuffix (("a").data)) ++ (".txt").data,
          txt_sanitize (env7.convert (("m").data))),
        (url_to_filename (addMdSuffix (("c").data)) ++ (".txt").data,
          txt_sanitize (env7.convert (("m").data)))]⟩ :=
  ⟨by decide, by decide,
    c7_partial_failure env7 (("b").data) (("a").data) (("c").data) (("m").data) (("m").data)
      rfl (by decide) (by decide) (by decide) (by decide) (by decide) (by decide)
      (fun _ => rfl) (fun _ => rfl)⟩
